import Mathlib

/-!
Verification of the gh_autograder_fetcher core grading logic.

The Rust sources are shallowly embedded: network calls are abstracted as an
environment of oracle functions returning `Except`, Rust's `DateTime<Utc>`
timestamps are modelled as `Int` (only their total order and rendering are
used; the rendering is abstracted as the integer's decimal string),
`IndexMap` is modelled as an insertion-ordered association list with
replace-on-duplicate inserts, and strings are manipulated as `List Char`
(the source only ever slices at boundaries of ASCII search hits, where byte
and character indices agree). Structure fields not read by the grading logic
(branch names, avatars, API metadata) are omitted.
-/

namespace Autograder

/-! ## Data model (src/models/mod.rs) -/

structure WorkflowRun where
  id : Nat
  created_at : Int
  conclusion : Option String
deriving DecidableEq, Repr

structure JobStep where
  name : String
  conclusion : Option String
deriving DecidableEq, Repr

structure Job where
  id : Nat
  name : String
  steps : List JobStep
deriving DecidableEq, Repr

structure Student where
  login : String
deriving DecidableEq, Repr

structure Repository where
  full_name : String
  html_url : String
deriving DecidableEq, Repr

structure AcceptedAssignment where
  students : List Student
  repository : Repository
deriving DecidableEq, Repr

structure StepWith where
  test_name : Option String
  max_score : Option Nat
deriving DecidableEq, Repr

structure WorkflowStep where
  name : String
  id : Option String
  uses : Option String
  with_ : Option StepWith
deriving DecidableEq, Repr

structure WorkflowJob where
  steps : List WorkflowStep
deriving DecidableEq, Repr

/-- The `jobs` HashMap of the workflow file, modelled as an association list. -/
structure WorkflowFile where
  jobs : List (String × WorkflowJob)
deriving DecidableEq, Repr

structure TestDefinition where
  name : String
  id : String
  max_score : Nat
deriving DecidableEq, Repr

structure TestResult where
  name : String
  points_awarded : Nat
  points_available : Nat
  passed : Bool
deriving DecidableEq, Repr

structure StudentResult where
  username : String
  repo_url : String
  workflow_run_timestamp : Int
  tests : List (String × TestResult)
  total_awarded : Nat
  total_available : Nat
deriving DecidableEq, Repr

structure LateGradingResult where
  username : String
  repo_url : String
  on_time_result : StudentResult
  late_result : StudentResult
  final_score : Nat
deriving DecidableEq, Repr

/-! ## String helpers

Models of the `str` operations used by `parse_points_from_summary` and the
workflow extractor, on `List Char`. -/

instance {ε α : Type} [DecidableEq ε] [DecidableEq α] : DecidableEq (Except ε α) :=
  fun a b =>
    match a, b with
    | .ok x, .ok y =>
      if h : x = y then isTrue (by rw [h]) else isFalse (by simp [h])
    | .error e, .error f =>
      if h : e = f then isTrue (by rw [h]) else isFalse (by simp [h])
    | .ok _, .error _ => isFalse (by simp)
    | .error _, .ok _ => isFalse (by simp)

/-- Rust `char::is_whitespace`, restricted to the ASCII whitespace that CI
logs contain. -/
def isWS (c : Char) : Bool :=
  c == ' ' || c == '\t' || c == '\n' || c == '\r'

/-- Rust `str::split(c)`: every segment between occurrences of `c`,
including empty ones. -/
def splitChar (c : Char) : List Char → List (List Char)
  | [] => [[]]
  | x :: rest =>
    let r := splitChar c rest
    if x == c then [] :: r
    else (x :: r.headD []) :: r.tail

/-- The suffix of `s` starting at the first occurrence of `pat`
(`str::find` plus slicing from the found index). -/
def findSubSuffix (pat : List Char) : List Char → Option (List Char)
  | [] => if pat.isPrefixOf ([] : List Char) then some [] else none
  | c :: rest =>
    if pat.isPrefixOf (c :: rest) then some (c :: rest)
    else findSubSuffix pat rest

/-- Rust `s.contains(pat)` for strings. -/
def containsSub (s pat : String) : Bool :=
  (findSubSuffix pat.data s.data).isSome

/-- `&s[..idx]` for `idx = s.find(ch)`, when the character occurs. -/
def beforeCharOpt (ch : Char) (s : List Char) : Option (List Char) :=
  if s.contains ch then some (s.takeWhile (fun c => c != ch)) else none

/-- Rust `str::trim`. -/
def trimWS (s : List Char) : List Char :=
  ((s.dropWhile isWS).reverse.dropWhile isWS).reverse

/-- Rust `s.split_whitespace().last()`. -/
def lastToken (s : List Char) : Option (List Char) :=
  let r := s.reverse.dropWhile isWS
  if r.isEmpty then none
  else some ((r.takeWhile (fun c => !isWS c)).reverse)

/-- Rust `str::parse::<u32>()`: optional leading plus sign, at least one
digit, value below 2^32. -/
def parseU32 (s : List Char) : Option Nat :=
  let digits := match s with
    | '+' :: rest => rest
    | _ => s
  if digits ≠ [] ∧ digits.all (fun c => c.isDigit) then
    let n := digits.foldl (fun acc c => acc * 10 + (c.toNat - 48)) 0
    if n < 4294967296 then some n else none
  else none

/-- Strip one trailing carriage return (the `\r` of a `\r\n` line ending). -/
def stripCR (l : List Char) : List Char :=
  if l.getLast? = some '\r' then l.dropLast else l

/-- Apply `f` to every element except the last. -/
def mapInit (f : α → α) : List α → List α
  | [] => []
  | [x] => [x]
  | x :: y :: rest => f x :: mapInit f (y :: rest)

/-- Rust `str::lines`: split at `\n`, strip a `\r` before each split point,
no trailing empty line for a trailing newline. -/
def linesOf (s : List Char) : List (List Char) :=
  if s.isEmpty then []
  else if s.getLast? = some '\n' then ((splitChar '\n' s).dropLast).map stripCR
  else mapInit stripCR (splitChar '\n' s)

/-! ## Log score parsing (src/fetcher.rs, `parse_points_from_summary`) -/

/-- Stage two of the parse, applied per line: the whitespace-delimited token
just before the first `/`, parsed as `u32`. -/
def tokenBeforeSlash (line : List Char) : Option Nat :=
  match beforeCharOpt '/' line with
  | none => none
  | some before_slash =>
    match lastToken before_slash with
    | none => none
    | some num_str => parseU32 num_str

/-- Stage one of the parse: the token before the first `/` after the first
occurrence of `"Points"`. -/
def pointsAfterMarker (summary : List Char) : Option Nat :=
  match findSubSuffix ['P', 'o', 'i', 'n', 't', 's'] summary with
  | none => none
  | some suffix =>
    let after_points := suffix.drop 6
    match beforeCharOpt '/' after_points with
    | none => none
    | some before_slash =>
      match lastToken (trimWS before_slash) with
      | none => none
      | some num_str => parseU32 num_str

/-- `parse_points_from_summary` (src/fetcher.rs:20-51): try the
`"Points XX/YY"` pattern, then fall back to a line-by-line token-before-`/`
scan. -/
def parse_points_from_summary (summary : String) : Option Nat :=
  match pointsAfterMarker summary.data with
  | some points => some points
  | none => (linesOf summary.data).findSome? tokenBeforeSlash

/-! ## Run selection (src/fetcher.rs:118-133) -/

/-- Rust `Iterator::min_by_key`: on ties the first element wins. -/
def min_by_key (key : α → Int) : List α → Option α
  | [] => none
  | x :: xs => some (xs.foldl (fun acc y => if key y < key acc then y else acc) x)

/-- Rust `Iterator::max_by_key`: on ties the last element wins. -/
def max_by_key (key : α → Int) : List α → Option α
  | [] => none
  | x :: xs => some (xs.foldl (fun acc y => if key acc ≤ key y then y else acc) x)

/-- The `target_run` selection of `fetch_student_results`: filter to runs
with a conclusion, then least `created_at` when a deadline was given (the
collaborator query already restricted the list to runs at/after it),
greatest `created_at` otherwise. -/
def selectRun (runs : List WorkflowRun) (deadline : Option Int) : Option WorkflowRun :=
  let completed := runs.filter (fun r => r.conclusion.isSome)
  match deadline with
  | some _ => min_by_key (fun r => r.created_at) completed
  | none => max_by_key (fun r => r.created_at) completed

/-! ## Step score resolution (src/fetcher.rs:158-199) -/

/-- `IndexMap::insert`: replace in place when the key exists, else append. -/
def indexMapInsert (m : List (String × TestResult)) (k : String) (v : TestResult) :
    List (String × TestResult) :=
  if m.any (fun kv => kv.1 == k) then
    m.map (fun kv => if kv.1 == k then (k, v) else kv)
  else m ++ [(k, v)]

/-- `IndexMap::get` on the association-list model. -/
def indexMapGet (m : List (String × α)) (k : String) : Option α :=
  (m.find? (fun kv => kv.1 == k)).map (fun kv => kv.2)

/-- The `(points_awarded, passed)` pair for one declaration: find a step with
matching name; a `success` conclusion earns `max_score`, anything else
(`failure`, skipped, cancelled, absent conclusion, or no matching step)
earns zero. The Rust lists `Some("failure")` as its own arm with the same
result as the catch-all; both collapse into the `else` here. -/
def stepScore (steps : List JobStep) (test_def : TestDefinition) : Nat × Bool :=
  match steps.find? (fun s => s.name == test_def.name) with
  | some st =>
    match st.conclusion with
    | some c => if c = "success" then (test_def.max_score, true) else (0, false)
    | none => (0, false)
  | none => (0, false)

/-- One iteration of the per-declaration loop of `fetch_student_results`. -/
def resolveStep (steps : List JobStep) (tests : List (String × TestResult))
    (test_def : TestDefinition) : List (String × TestResult) :=
  indexMapInsert tests test_def.name
    ⟨test_def.name, (stepScore steps test_def).1, test_def.max_score,
      (stepScore steps test_def).2⟩

/-- The per-declaration loop of `fetch_student_results` (src/fetcher.rs:158-186). -/
def resolveTests (test_definitions : List TestDefinition) (steps : List JobStep) :
    List (String × TestResult) :=
  test_definitions.foldl (resolveStep steps) []

/-- The `TestResult` the loop records for one declaration. -/
def declEntry (steps : List JobStep) (d : TestDefinition) : TestResult :=
  ⟨d.name, (stepScore steps d).1, d.max_score, (stepScore steps d).2⟩

/-- The provisional total: `tests.values().map(|t| t.points_awarded).sum()`. -/
def provisionalTotal (tests : List (String × TestResult)) : Nat :=
  (tests.map (fun kv => kv.2.points_awarded)).sum

/-! ## Student result construction (src/fetcher.rs:84-209) -/

/-- `parse_repo_url` (src/fetcher.rs:9-16). -/
def parse_repo_url (full_name : String) : String × String :=
  match splitChar '/' full_name.data with
  | a :: b :: _ => (⟨a⟩, ⟨b⟩)
  | _ => ("", "")

/-- The GitHub API calls made while resolving one student, abstracted as
oracles. `listRuns` stands for the `list_workflow_runs` response already
restricted server-side to completed dispatch-triggered runs (and, when a
deadline was given, to runs created at/after it). -/
structure GhEnv where
  listRuns : Except String (List WorkflowRun)
  listJobs : Nat → Except String (List Job)
  getJobLogs : Nat → Except String String

/-- The tail of `fetch_student_results` (src/fetcher.rs:158-208): step-based
provisional scores, log-based refinement of the total, and assembly of the
`StudentResult`. -/
def buildResult (username repo_url : String) (run : WorkflowRun)
    (autograding_job : Job) (logsResult : Except String String)
    (test_definitions : List TestDefinition) : StudentResult :=
  let tests := resolveTests test_definitions autograding_job.steps
  let total_awarded := provisionalTotal tests
  let total_awarded :=
    match logsResult with
    | .ok logs =>
      match parse_points_from_summary logs with
      | some points => points
      | none => total_awarded
    | .error _ => total_awarded
  let total_available := (test_definitions.map (fun t => t.max_score)).sum
  { username := username
    repo_url := repo_url
    workflow_run_timestamp := run.created_at
    tests := tests
    total_awarded := total_awarded
    total_available := total_available }

/-- `fetch_student_results` (src/fetcher.rs:84-209). -/
def fetch_student_results (env : GhEnv) (student : AcceptedAssignment)
    (deadline : Option Int) (test_definitions : List TestDefinition) :
    Except String StudentResult :=
  let owner := (parse_repo_url student.repository.full_name).1
  let repo := (parse_repo_url student.repository.full_name).2
  if owner = "" ∨ repo = "" then
    .error ("Invalid repository name: " ++ student.repository.full_name)
  else
    let username := ((student.students.head?).map (fun s => s.login)).getD "unknown"
    match env.listRuns with
    | .error e => .error e
    | .ok runs =>
      match selectRun runs deadline with
      | none => .error ("No completed workflow run found for " ++ username)
      | some run =>
        match env.listJobs run.id with
        | .error e => .error e
        | .ok jobs =>
          match jobs.find? (fun j => j.name == "run-autograding-tests") with
          | none => .error ("No run-autograding-tests job found for " ++ username)
          | some autograding_job =>
            .ok (buildResult username student.repository.html_url run
                  autograding_job (env.getJobLogs autograding_job.id)
                  test_definitions)

/-! ## Workflow extraction (src/parser/mod.rs:13-48) -/

/-- One iteration of the step loop of `extract_test_definitions`: append a
declaration for a step that references the autograding-command-grader action
and carries an id, a test-name and a numeric max-score; skip it otherwise. -/
def extractStep (tests : List TestDefinition) (step : WorkflowStep) :
    List TestDefinition :=
  let uses_autograder :=
    (step.uses.map (fun u => containsSub u "autograding-command-grader")).getD false
  if !uses_autograder then tests
  else
    match step.id, step.with_ with
    | some id, some w =>
      match w.test_name, w.max_score with
      | some _, some max_score => tests ++ [⟨step.name, id, max_score⟩]
      | _, _ => tests
    | _, _ => tests

/-- `extract_test_definitions`: locate the `run-autograding-tests` job, keep
its qualifying steps in file order, and fail when none qualify. -/
def extract_test_definitions (workflow : WorkflowFile) : Except String (List TestDefinition) :=
  match (workflow.jobs.find? (fun kv => kv.1 == "run-autograding-tests")).map
      (fun kv => kv.2) with
  | none => .error "Job run-autograding-tests not found in workflow"
  | some job =>
    let tests := job.steps.foldl extractStep []
    if tests.isEmpty then .error "No autograding tests found in workflow"
    else .ok tests

/-- The declaration (if any) that `extractStep` appends for one step; the
spec-side characterization of which steps are kept. -/
def extractedDecl (step : WorkflowStep) : Option TestDefinition :=
  if (step.uses.map (fun u => containsSub u "autograding-command-grader")).getD false then
    match step.id, step.with_ with
    | some id, some w =>
      match w.test_name, w.max_score with
      | some _, some max_score => some ⟨step.name, id, max_score⟩
      | _, _ => none
    | _, _ => none
  else none

/-! ## Batch resolution (src/fetcher.rs:212-282) -/

/-- The roster loop of `fetch_all_results`: a failed resolution is logged
and skipped, a successful one is pushed. -/
def batchLoop (resolve : AcceptedAssignment → Except String StudentResult) :
    List AcceptedAssignment → List StudentResult
  | [] => []
  | s :: rest =>
    match resolve s with
    | .ok result => result :: batchLoop resolve rest
    | .error _ => batchLoop resolve rest

/-- `fetch_all_results` (src/fetcher.rs:212-282), after the roster has been
retrieved: bail on an empty roster, bail when test-declaration extraction
failed, otherwise resolve every student, tolerating per-student failure. -/
def fetch_all_results (roster : List AcceptedAssignment)
    (test_definitions_result : Except String (List TestDefinition))
    (deadline : Option Int) (envOf : AcceptedAssignment → GhEnv) :
    Except String (List StudentResult) :=
  if roster.isEmpty then .error "No students have accepted this assignment yet"
  else
    match test_definitions_result with
    | .error e => .error e
    | .ok test_definitions =>
      .ok (batchLoop
        (fun student => fetch_student_results (envOf student) student deadline
          test_definitions)
        roster)

/-! ## CSV export (src/export.rs:7-88)

File IO and the header row are abstracted away; `csvRecord` is the data row
written for one student. Timestamp rendering (`to_rfc3339`) is modelled as
the decimal rendering of the integer timestamp, and the `{:.2}` float format
as exact rational rounding to two decimals. -/

def to_rfc3339 (t : Int) : String := toString t

/-- The percentage cell: `awarded / available * 100` to two decimals,
`0.00` when nothing is available. -/
def formatPct2 (awarded available : Nat) : String :=
  let q : ℚ := if 0 < available then (awarded : ℚ) / (available : ℚ) * 100 else 0
  let scaled : Int := round (q * 100)
  let ip := scaled / 100
  let fp := scaled % 100
  toString ip ++ "." ++ (if fp < 10 then "0" ++ toString fp else toString fp)

/-- One per-test cell: the awarded points of the named test, `"0"` when the
student's map lacks it. -/
def awardCell (student : StudentResult) (n : String) : String :=
  match indexMapGet student.tests n with
  | some t => toString t.points_awarded
  | none => "0"

/-- One student's CSV data row. -/
def csvRecord (test_names : List String) (student : StudentResult) : List String :=
  [student.username, student.repo_url, to_rfc3339 student.workflow_run_timestamp]
    ++ test_names.map (awardCell student)
    ++ [toString student.total_awarded, toString student.total_available,
        formatPct2 student.total_awarded student.total_available]

/-- The test-name columns: the first student's key order. -/
def exportTestNames (results : List StudentResult) : List String :=
  ((results.head?).map (fun r => r.tests.map (fun kv => kv.1))).getD []

/-- `export_to_csv`, reduced to the rows it writes. -/
def export_to_csv (results : List StudentResult) : Except String (List (List String)) :=
  if results.isEmpty then .error "No results to export"
  else .ok (results.map (csvRecord (exportTestNames results)))

/-! ## Late grading (spec §4.6)

`fetch_all_late_results` is invoked from src/ui/app.rs:966 and its output is
consumed by `export_late_grading_to_csv`, but its definition is not among
the sources. -/

/-- Modelled from the spec: the final-score rule of `fetch_all_late_results`
(§4.6): keep the on-time score when the late attempt did not improve it,
otherwise the late score scaled by `1 - p` and rounded. -/
def lateFinalScore (on_time_awarded late_awarded : Nat) (p : ℚ) : Nat :=
  if late_awarded ≤ on_time_awarded then on_time_awarded
  else (round ((late_awarded : ℚ) * (1 - p))).toNat

/-- Modelled from the spec: the pairing step of `fetch_all_late_results`
(§4.6): pair the two batches by student handle, dropping students present in
only one of them, and blend each pair with `lateFinalScore`. -/
def combineLate (onTimeBatch lateBatch : List StudentResult) (p : ℚ) :
    List LateGradingResult :=
  onTimeBatch.filterMap (fun ot =>
    (lateBatch.find? (fun l => l.username == ot.username)).map (fun l =>
      { username := ot.username
        repo_url := ot.repo_url
        on_time_result := ot
        late_result := l
        final_score := lateFinalScore ot.total_awarded l.total_awarded p }))

/-! ## Concrete inputs used by witnesses and counterexamples -/

def demoRun1 : WorkflowRun := ⟨1, 10, some "success"⟩

def demoRun2 : WorkflowRun := ⟨2, 50, some "failure"⟩

def demoRun3 : WorkflowRun := ⟨3, 70, none⟩

def demoRuns : List WorkflowRun := [demoRun1, demoRun2, demoRun3]

def demoDefsA : List TestDefinition := [⟨"t1", "t-1", 5⟩, ⟨"t2", "t-2", 10⟩]

def demoStepsA : List JobStep :=
  [⟨"Checkout code", some "success"⟩, ⟨"t1", some "success"⟩, ⟨"t2", some "failure"⟩]

def demoJobA : Job := ⟨42, "run-autograding-tests", demoStepsA⟩

def demoStudentA : AcceptedAssignment :=
  ⟨[⟨"alice"⟩], ⟨"org/alice-repo", "https://github.com/org/alice-repo"⟩⟩

def demoStudentB : AcceptedAssignment :=
  ⟨[⟨"bob"⟩], ⟨"org/bob-repo", "https://github.com/org/bob-repo"⟩⟩

def demoEnvA : GhEnv :=
  { listRuns := .ok [demoRun1, demoRun2]
    listJobs := fun _ => .ok [demoJobA]
    getJobLogs := fun _ => .error "log download failed" }

def demoEnvBad : GhEnv :=
  { listRuns := .error "HTTP 500"
    listJobs := fun _ => .error "HTTP 500"
    getJobLogs := fun _ => .error "HTTP 500" }

def demoEnvOf (s : AcceptedAssignment) : GhEnv :=
  if s = demoStudentB then demoEnvBad else demoEnvA

def demoEnv10 : GhEnv :=
  { listRuns := .ok [⟨7, 100, some "success"⟩]
    listJobs := fun _ => .ok [⟨42, "run-autograding-tests", [⟨"t1", some "success"⟩]⟩]
    getJobLogs := fun _ => .ok "Points 100/5" }

def demoDefs10 : List TestDefinition := [⟨"t1", "t-1", 5⟩]

def overrideResult : StudentResult :=
  ⟨"alice", "https://github.com/org/alice-repo", 100,
    [("t1", ⟨"t1", 5, 5, true⟩)], 100, 5⟩

def demoOnTimeResult : StudentResult := ⟨"sam", "https://github.com/org/sam-repo", 0, [], 5, 15⟩

def demoLateResult : StudentResult := ⟨"sam", "https://github.com/org/sam-repo", 9, [], 15, 15⟩

def demoPair : LateGradingResult :=
  ⟨"sam", "https://github.com/org/sam-repo", demoOnTimeResult, demoLateResult, 12⟩

def demoOnBatch : List StudentResult := [demoOnTimeResult]

def demoLateBatch : List StudentResult := [demoLateResult]

def graderStep (n : String) (tn : Option String) (ms : Nat) : WorkflowStep :=
  ⟨n, some (n ++ "-id"), some "classroom-resources/autograding-command-grader@v1",
    some ⟨tn, some ms⟩⟩

def demoWfGood : WorkflowFile :=
  ⟨[("run-autograding-tests",
      ⟨[⟨"Checkout code", none, some "actions/checkout@v4", none⟩,
        graderStep "t1" (some "t1") 5,
        graderStep "t2" (some "t2") 10]⟩)]⟩

def noTestNameStep : WorkflowStep := graderStep "t1" none 5

def demoWfNoTestName : WorkflowFile :=
  ⟨[("run-autograding-tests", ⟨[noTestNameStep]⟩)]⟩

def demoStudent9 : StudentResult :=
  ⟨"alice", "https://github.com/org/alice-repo", 0,
    [("t1", ⟨"t1", 5, 5, true⟩)], 5, 15⟩

def demoTestResult1 : TestResult := ⟨"t1", 5, 5, true⟩

def demoTestResult2 : TestResult := ⟨"t2", 0, 10, false⟩

/-- The result `fetch_student_results` computes for `demoStudentA` under
`demoEnvA` (scenario A: latest run 2, `t1` passing, `t2` failing, no log). -/
def demoResultA : StudentResult :=
  ⟨"alice", "https://github.com/org/alice-repo", 50,
    [("t1", demoTestResult1), ("t2", demoTestResult2)], 5, 15⟩

/-! ## Helper lemmas -/

theorem foldl_min_mem (key : α → Int) (ys : List α) (x : α) :
    ys.foldl (fun acc y => if key y < key acc then y else acc) x ∈ x :: ys := by
  induction ys generalizing x with
  | nil => simp
  | cons y ys ih =>
    simp only [List.foldl_cons]
    by_cases hxy : key y < key x
    · rw [if_pos hxy]
      rcases List.mem_cons.mp (ih y) with h1 | h1
      · rw [h1]
        exact List.mem_cons_of_mem _ (List.mem_cons_self _ _)
      · exact List.mem_cons_of_mem _ (List.mem_cons_of_mem _ h1)
    · rw [if_neg hxy]
      rcases List.mem_cons.mp (ih x) with h1 | h1
      · rw [h1]
        exact List.mem_cons_self _ _
      · exact List.mem_cons_of_mem _ (List.mem_cons_of_mem _ h1)

theorem foldl_min_le (key : α → Int) (ys : List α) (x : α) :
    ∀ z ∈ x :: ys,
      key (ys.foldl (fun acc y => if key y < key acc then y else acc) x) ≤ key z := by
  induction ys generalizing x with
  | nil =>
    intro z hz
    simp only [List.foldl_nil]
    rcases List.mem_cons.mp hz with h | h
    · rw [h]
    · simp at h
  | cons y ys ih =>
    intro z hz
    simp only [List.foldl_cons]
    have hax : key (if key y < key x then y else x) ≤ key x := by
      by_cases hxy : key y < key x
      · rw [if_pos hxy]
        exact le_of_lt hxy
      · rw [if_neg hxy]
    have hay : key (if key y < key x then y else x) ≤ key y := by
      by_cases hxy : key y < key x
      · rw [if_pos hxy]
      · rw [if_neg hxy]
        exact le_of_not_lt hxy
    have hmin := ih (if key y < key x then y else x) _ (List.mem_cons_self _ _)
    rcases List.mem_cons.mp hz with h1 | h1
    · rw [h1]
      exact le_trans hmin hax
    rcases List.mem_cons.mp h1 with h2 | h2
    · rw [h2]
      exact le_trans hmin hay
    · exact ih (if key y < key x then y else x) z (List.mem_cons_of_mem _ h2)

theorem foldl_max_mem (key : α → Int) (ys : List α) (x : α) :
    ys.foldl (fun acc y => if key acc ≤ key y then y else acc) x ∈ x :: ys := by
  induction ys generalizing x with
  | nil => simp
  | cons y ys ih =>
    simp only [List.foldl_cons]
    by_cases hxy : key x ≤ key y
    · rw [if_pos hxy]
      rcases List.mem_cons.mp (ih y) with h1 | h1
      · rw [h1]
        exact List.mem_cons_of_mem _ (List.mem_cons_self _ _)
      · exact List.mem_cons_of_mem _ (List.mem_cons_of_mem _ h1)
    · rw [if_neg hxy]
      rcases List.mem_cons.mp (ih x) with h1 | h1
      · rw [h1]
        exact List.mem_cons_self _ _
      · exact List.mem_cons_of_mem _ (List.mem_cons_of_mem _ h1)

theorem foldl_max_le (key : α → Int) (ys : List α) (x : α) :
    ∀ z ∈ x :: ys,
      key z ≤ key (ys.foldl (fun acc y => if key acc ≤ key y then y else acc) x) := by
  induction ys generalizing x with
  | nil =>
    intro z hz
    simp only [List.foldl_nil]
    rcases List.mem_cons.mp hz with h | h
    · rw [h]
    · simp at h
  | cons y ys ih =>
    intro z hz
    simp only [List.foldl_cons]
    have hax : key x ≤ key (if key x ≤ key y then y else x) := by
      by_cases hxy : key x ≤ key y
      · rw [if_pos hxy]
        exact hxy
      · rw [if_neg hxy]
    have hay : key y ≤ key (if key x ≤ key y then y else x) := by
      by_cases hxy : key x ≤ key y
      · rw [if_pos hxy]
      · rw [if_neg hxy]
        exact le_of_not_le hxy
    have hmax := ih (if key x ≤ key y then y else x) _ (List.mem_cons_self _ _)
    rcases List.mem_cons.mp hz with h1 | h1
    · rw [h1]
      exact le_trans hax hmax
    rcases List.mem_cons.mp h1 with h2 | h2
    · rw [h2]
      exact le_trans hay hmax
    · exact ih (if key x ≤ key y then y else x) z (List.mem_cons_of_mem _ h2)

theorem min_by_key_spec (key : α → Int) (l : List α) (r : α)
    (h : min_by_key key l = some r) : r ∈ l ∧ ∀ z ∈ l, key r ≤ key z := by
  cases l with
  | nil => simp [min_by_key] at h
  | cons x xs =>
    simp only [min_by_key, Option.some.injEq] at h
    subst h
    refine ⟨foldl_min_mem key xs x, ?_⟩
    intro z hz
    exact foldl_min_le key xs x z hz

theorem max_by_key_spec (key : α → Int) (l : List α) (r : α)
    (h : max_by_key key l = some r) : r ∈ l ∧ ∀ z ∈ l, key z ≤ key r := by
  cases l with
  | nil => simp [max_by_key] at h
  | cons x xs =>
    simp only [max_by_key, Option.some.injEq] at h
    subst h
    refine ⟨foldl_max_mem key xs x, ?_⟩
    intro z hz
    exact foldl_max_le key xs x z hz

theorem min_by_key_eq_none (key : α → Int) (l : List α) :
    min_by_key key l = none ↔ l = [] := by
  cases l <;> simp [min_by_key]

theorem max_by_key_eq_none (key : α → Int) (l : List α) :
    max_by_key key l = none ↔ l = [] := by
  cases l <;> simp [max_by_key]

/-! ## C1: run selection -/

/-- C1: `selectRun` considers only runs with a non-null conclusion; with no
deadline it returns a run with the greatest `created_at` among them, with a
deadline (the input list being restricted to runs at/after it) a run with
the least `created_at`; it returns `none` (the `NoCompletedRun` failure)
exactly when no conclusion-bearing run exists. -/
theorem run_selector_correct (runs : List WorkflowRun) :
    (∀ r, selectRun runs none = some r →
      r ∈ runs ∧ r.conclusion.isSome = true ∧
        ∀ s ∈ runs, s.conclusion.isSome = true → s.created_at ≤ r.created_at)
    ∧ (∀ d r, selectRun runs (some d) = some r →
      r ∈ runs ∧ r.conclusion.isSome = true ∧
        ∀ s ∈ runs, s.conclusion.isSome = true → r.created_at ≤ s.created_at)
    ∧ (∀ deadline, selectRun runs deadline = none ↔
        ∀ r ∈ runs, r.conclusion.isSome = false) := by
  have hfilter : ∀ deadline, (selectRun runs deadline = none ↔
      ∀ r ∈ runs, r.conclusion.isSome = false) := by
    intro deadline
    have hnil : (runs.filter (fun r => r.conclusion.isSome) = []) ↔
        ∀ r ∈ runs, r.conclusion.isSome = false := by
      rw [List.filter_eq_nil_iff]
      constructor
      · intro h r hr
        exact Bool.eq_false_iff.mpr (h r hr)
      · intro h r hr
        rw [h r hr]
        simp
    cases deadline with
    | none =>
      simp only [selectRun]
      rw [max_by_key_eq_none]
      exact hnil
    | some d =>
      simp only [selectRun]
      rw [min_by_key_eq_none]
      exact hnil
  refine ⟨?_, ?_, hfilter⟩
  · intro r h
    simp only [selectRun] at h
    obtain ⟨hmem, hmax⟩ := max_by_key_spec _ _ _ h
    have hr := List.mem_filter.mp hmem
    refine ⟨hr.1, hr.2, ?_⟩
    intro s hs hsome
    exact hmax s (List.mem_filter.mpr ⟨hs, hsome⟩)
  · intro d r h
    simp only [selectRun] at h
    obtain ⟨hmem, hmin⟩ := min_by_key_spec _ _ _ h
    have hr := List.mem_filter.mp hmem
    refine ⟨hr.1, hr.2, ?_⟩
    intro s hs hsome
    exact hmin s (List.mem_filter.mpr ⟨hs, hsome⟩)

/-- C1 witness: on the demo runs, no-deadline selection returns run 2, which
bears a conclusion and dominates the conclusion-bearing run 1. -/
theorem run_selector_witness :
    demoRun2 ∈ demoRuns ∧ demoRun2.conclusion.isSome = true ∧
    demoRun1.created_at ≤ demoRun2.created_at := by
  have h := (run_selector_correct demoRuns).1 demoRun2 (by decide)
  exact ⟨h.1, h.2.1, h.2.2 demoRun1 (by decide) (by decide)⟩

/-! ## Step resolution lemmas -/

theorem indexMapInsert_of_not_mem (m : List (String × TestResult)) (k : String)
    (v : TestResult) (h : ∀ kv ∈ m, kv.1 ≠ k) :
    indexMapInsert m k v = m ++ [(k, v)] := by
  unfold indexMapInsert
  rw [if_neg]
  simp only [List.any_eq_true, beq_iff_eq, not_exists, not_and]
  intro kv hkv
  exact h kv hkv

theorem mem_indexMapInsert (m : List (String × TestResult)) (k : String)
    (v : TestResult) (kv : String × TestResult) (h : kv ∈ indexMapInsert m k v) :
    kv ∈ m ∨ kv = (k, v) := by
  unfold indexMapInsert at h
  by_cases hc : m.any (fun kv => kv.1 == k)
  · rw [if_pos hc] at h
    obtain ⟨kv', hkv', heq⟩ := List.mem_map.mp h
    by_cases hk : kv'.1 == k
    · rw [if_pos hk] at heq
      right
      exact heq.symm
    · rw [if_neg hk] at heq
      left
      rw [← heq]
      exact hkv'
  · rw [if_neg hc] at h
    rcases List.mem_append.mp h with h1 | h1
    · exact Or.inl h1
    · right
      simpa using h1

theorem resolveTests_go (steps : List JobStep) (defs : List TestDefinition)
    (acc : List (String × TestResult))
    (hnd : (defs.map (fun d => d.name)).Nodup)
    (hdisj : ∀ kv ∈ acc, ∀ d ∈ defs, kv.1 ≠ d.name) :
    defs.foldl (resolveStep steps) acc =
      acc ++ defs.map (fun d => (d.name, declEntry steps d)) := by
  induction defs generalizing acc with
  | nil => simp
  | cons d rest ih =>
    simp only [List.foldl_cons]
    have hstep : resolveStep steps acc d = acc ++ [(d.name, declEntry steps d)] :=
      indexMapInsert_of_not_mem acc d.name (declEntry steps d)
        (fun kv hkv => hdisj kv hkv d (List.mem_cons_self _ _))
    rw [hstep]
    have hnd' : (rest.map (fun d => d.name)).Nodup := by
      simp only [List.map_cons, List.nodup_cons] at hnd
      exact hnd.2
    have hhd : d.name ∉ rest.map (fun d => d.name) := by
      simp only [List.map_cons, List.nodup_cons] at hnd
      exact hnd.1
    have hdisj' : ∀ kv ∈ acc ++ [(d.name, declEntry steps d)], ∀ e ∈ rest, kv.1 ≠ e.name := by
      intro kv hkv e he
      rcases List.mem_append.mp hkv with h1 | h1
      · exact hdisj kv h1 e (List.mem_cons_of_mem _ he)
      · have hkv' : kv = (d.name, declEntry steps d) := by simpa using h1
        rw [hkv']
        intro hcontra
        have hcontra' : d.name = e.name := hcontra
        exact hhd (by rw [hcontra']; exact List.mem_map_of_mem (fun d => d.name) he)
    rw [ih (acc ++ [(d.name, declEntry steps d)]) hnd' hdisj']
    simp

theorem resolveTests_eq_map (defs : List TestDefinition) (steps : List JobStep)
    (hnd : (defs.map (fun d => d.name)).Nodup) :
    resolveTests defs steps = defs.map (fun d => (d.name, declEntry steps d)) := by
  unfold resolveTests
  rw [resolveTests_go steps defs [] hnd (by simp)]
  simp

theorem indexMapGet_resolveTests (defs : List TestDefinition) (steps : List JobStep)
    (d : TestDefinition) (hnd : (defs.map (fun d => d.name)).Nodup) (hd : d ∈ defs) :
    indexMapGet (resolveTests defs steps) d.name = some (declEntry steps d) := by
  rw [resolveTests_eq_map defs steps hnd]
  induction defs with
  | nil => simp at hd
  | cons e rest ih =>
    rcases List.mem_cons.mp hd with h1 | h1
    · subst h1
      simp [indexMapGet]
    · have hne : e.name ≠ d.name := by
        simp only [List.map_cons, List.nodup_cons] at hnd
        intro hcontra
        exact hnd.1 (hcontra ▸ List.mem_map_of_mem (fun d => d.name) h1)
      simp only [List.map_cons, indexMapGet, List.find?_cons]
      rw [show ((e.name, declEntry steps e).1 == d.name) = false from beq_eq_false_iff_ne.mpr hne]
      have hnd' : (rest.map (fun d => d.name)).Nodup := by
        simp only [List.map_cons, List.nodup_cons] at hnd
        exact hnd.2
      exact ih hnd' h1

theorem provisionalTotal_resolveTests (defs : List TestDefinition) (steps : List JobStep)
    (hnd : (defs.map (fun d => d.name)).Nodup) :
    provisionalTotal (resolveTests defs steps) =
      (defs.map (fun d => (declEntry steps d).points_awarded)).sum := by
  rw [resolveTests_eq_map defs steps hnd]
  unfold provisionalTotal
  rw [List.map_map]
  rfl

/-! ## C3: step score resolution -/

/-- C3: with distinct declaration names, every declaration gets exactly one
entry: full `maxScore` and `passed` when the step found by name concluded
`success`, zero and failed when it concluded anything else or no step
matches; the provisional total is the sum of the per-declaration awards. -/
theorem step_score_resolution (test_definitions : List TestDefinition)
    (steps : List JobStep)
    (hnd : (test_definitions.map (fun d => d.name)).Nodup) :
    (∀ d ∈ test_definitions, ∃ t,
      indexMapGet (resolveTests test_definitions steps) d.name = some t ∧
      t.points_available = d.max_score ∧
      ((∃ st, steps.find? (fun s => s.name == d.name) = some st ∧
          st.conclusion = some "success") →
        t.points_awarded = d.max_score ∧ t.passed = true) ∧
      ((∀ st, steps.find? (fun s => s.name == d.name) = some st →
          st.conclusion ≠ some "success") →
        t.points_awarded = 0 ∧ t.passed = false))
    ∧ provisionalTotal (resolveTests test_definitions steps) =
      (test_definitions.map (fun d => (declEntry steps d).points_awarded)).sum := by
  refine ⟨?_, provisionalTotal_resolveTests test_definitions steps hnd⟩
  intro d hd
  refine ⟨declEntry steps d, indexMapGet_resolveTests test_definitions steps d hnd hd,
    rfl, ?_, ?_⟩
  · rintro ⟨st, hfind, hconc⟩
    simp [declEntry, stepScore, hfind, hconc]
  · intro hnone
    cases hfind : steps.find? (fun s => s.name == d.name) with
    | none => simp [declEntry, stepScore, hfind]
    | some st =>
      cases hconc : st.conclusion with
      | none => simp [declEntry, stepScore, hfind, hconc]
      | some c =>
        have hc : c ≠ "success" := by
          intro hcontra
          exact hnone st hfind (hcontra ▸ hconc)
        simp [declEntry, stepScore, hfind, hconc, hc]

/-- C3 witness: on scenario A, `t1` (a succeeding step) earns its full 5
points and `t2` (a failing step) earns zero. -/
theorem step_score_resolution_witness :
    demoTestResult1.points_awarded = 5 ∧ demoTestResult1.passed = true
    ∧ demoTestResult2.points_awarded = 0 ∧ demoTestResult2.passed = false
    ∧ indexMapGet (resolveTests demoDefsA demoStepsA) "t1" = some demoTestResult1
    ∧ indexMapGet (resolveTests demoDefsA demoStepsA) "t2" = some demoTestResult2 := by
  obtain ⟨hall, -⟩ := step_score_resolution demoDefsA demoStepsA (by decide)
  obtain ⟨t1r, hget1, -, hsucc, -⟩ := hall ⟨"t1", "t-1", 5⟩ (by decide)
  obtain ⟨t2r, hget2, -, -, hfail⟩ := hall ⟨"t2", "t-2", 10⟩ (by decide)
  have he1 : t1r = demoTestResult1 := Option.some.inj (hget1.symm.trans (by decide))
  have he2 : t2r = demoTestResult2 := Option.some.inj (hget2.symm.trans (by decide))
  obtain ⟨hp1, hb1⟩ := hsucc ⟨⟨"t1", some "success"⟩, by decide, rfl⟩
  obtain ⟨hp2, hb2⟩ := hfail (by decide)
  exact ⟨he1 ▸ hp1, he1 ▸ hb1, he2 ▸ hp2, he2 ▸ hb2, he1 ▸ hget1, he2 ▸ hget2⟩

/-! ## Student-result pipeline lemmas -/

theorem buildResult_tests (u ru : String) (run : WorkflowRun) (job : Job)
    (lr : Except String String) (defs : List TestDefinition) :
    (buildResult u ru run job lr defs).tests = resolveTests defs job.steps := rfl

theorem buildResult_total_available (u ru : String) (run : WorkflowRun) (job : Job)
    (lr : Except String String) (defs : List TestDefinition) :
    (buildResult u ru run job lr defs).total_available =
      (defs.map (fun t => t.max_score)).sum := rfl

theorem fetch_ok_shape (env : GhEnv) (student : AcceptedAssignment)
    (deadline : Option Int) (defs : List TestDefinition) (r : StudentResult)
    (h : fetch_student_results env student deadline defs = .ok r) :
    ∃ runs run jobs job,
      env.listRuns = .ok runs ∧ selectRun runs deadline = some run ∧
      env.listJobs run.id = .ok jobs ∧
      jobs.find? (fun j => j.name == "run-autograding-tests") = some job ∧
      r = buildResult (((student.students.head?).map (fun s => s.login)).getD "unknown")
            student.repository.html_url run job (env.getJobLogs job.id) defs := by
  simp only [fetch_student_results] at h
  by_cases howner : (parse_repo_url student.repository.full_name).1 = ""
      ∨ (parse_repo_url student.repository.full_name).2 = ""
  · rw [if_pos howner] at h
    exact absurd h (by simp)
  · rw [if_neg howner] at h
    rcases hruns : env.listRuns with e | runs
    · rw [hruns] at h
      exact absurd h (by simp)
    · rw [hruns] at h
      dsimp only at h
      rcases hsel : selectRun runs deadline with _ | run
      · rw [hsel] at h
        exact absurd h (by simp)
      · rw [hsel] at h
        dsimp only at h
        rcases hjobs : env.listJobs run.id with e | jobs
        · rw [hjobs] at h
          exact absurd h (by simp)
        · rw [hjobs] at h
          dsimp only at h
          rcases hfind : jobs.find? (fun j => j.name == "run-autograding-tests")
            with _ | job
          · rw [hfind] at h
            exact absurd h (by simp)
          · rw [hfind] at h
            dsimp only at h
            refine ⟨runs, run, jobs, job, rfl, hsel, hjobs, hfind, ?_⟩
            injection h with h2
            exact h2.symm

/-! ## C4: log score refinement frame -/

/-- C4: the log-refinement stage only ever changes `totalAwarded`. The
per-test results and `totalAvailable` of `buildResult` do not depend on the
log fetch result; when the fetch failed or the two-stage parse yields
nothing the total is exactly the step-based provisional total, and a parsed
number replaces it. Every `.ok` of the student pipeline goes through
`buildResult` with the fetched log. -/
theorem log_refiner_frame (u ru : String) (run : WorkflowRun) (job : Job)
    (lr : Except String String) (defs : List TestDefinition) :
    (buildResult u ru run job lr defs).tests = resolveTests defs job.steps
    ∧ (buildResult u ru run job lr defs).total_available =
        (defs.map (fun t => t.max_score)).sum
    ∧ (∀ e, lr = .error e →
        (buildResult u ru run job lr defs).total_awarded =
          provisionalTotal (resolveTests defs job.steps))
    ∧ (∀ logs, lr = .ok logs → parse_points_from_summary logs = none →
        (buildResult u ru run job lr defs).total_awarded =
          provisionalTotal (resolveTests defs job.steps))
    ∧ (∀ logs n, lr = .ok logs → parse_points_from_summary logs = some n →
        (buildResult u ru run job lr defs).total_awarded = n)
    ∧ (∀ env student deadline r,
        fetch_student_results env student deadline defs = .ok r →
        ∃ run2 job2, r = buildResult
          (((student.students.head?).map (fun s => s.login)).getD "unknown")
          student.repository.html_url run2 job2 (env.getJobLogs job2.id) defs) := by
  refine ⟨rfl, rfl, ?_, ?_, ?_, ?_⟩
  · intro e he
    subst he
    rfl
  · intro logs hlogs hparse
    subst hlogs
    simp [buildResult, hparse]
  · intro logs n hlogs hparse
    subst hlogs
    simp [buildResult, hparse]
  · intro env student deadline r h
    obtain ⟨runs, run2, jobs, job2, -, -, -, -, hr⟩ :=
      fetch_ok_shape env student deadline defs r h
    exact ⟨run2, job2, hr⟩

/-- C4 witness: with the scenario-B log `"Points 12/15"`, the parsed 12
replaces the total while the per-test map stays the step-based one. -/
theorem log_refiner_frame_witness :
    (buildResult "alice" "u" demoRun2 demoJobA (Except.ok "Points 12/15")
        demoDefsA).total_awarded = 12
    ∧ (buildResult "alice" "u" demoRun2 demoJobA (Except.ok "Points 12/15")
        demoDefsA).tests = resolveTests demoDefsA demoJobA.steps := by
  have h := log_refiner_frame "alice" "u" demoRun2 demoJobA
    (Except.ok "Points 12/15") demoDefsA
  exact ⟨h.2.2.2.2.1 "Points 12/15" 12 rfl (by decide), h.1⟩

/-! ## C7: per-test bounds -/

theorem stepScore_le (steps : List JobStep) (d : TestDefinition) :
    (stepScore steps d).1 ≤ d.max_score := by
  unfold stepScore
  cases hf : steps.find? (fun s => s.name == d.name) with
  | none => simp
  | some st =>
    cases hc : st.conclusion with
    | none => simp [hc]
    | some c =>
      by_cases hcs : c = "success" <;> simp [hc, hcs]

theorem resolveTests_bounds (defs : List TestDefinition) (steps : List JobStep) :
    ∀ kv ∈ resolveTests defs steps,
      kv.2.points_awarded ≤ kv.2.points_available := by
  suffices h : ∀ (ds : List TestDefinition) (acc : List (String × TestResult)),
      (∀ kv ∈ acc, kv.2.points_awarded ≤ kv.2.points_available) →
      ∀ kv ∈ ds.foldl (resolveStep steps) acc,
        kv.2.points_awarded ≤ kv.2.points_available by
    exact h defs [] (by simp)
  intro ds
  induction ds with
  | nil =>
    intro acc hacc
    simpa using hacc
  | cons d rest ih =>
    intro acc hacc kv hkv
    simp only [List.foldl_cons] at hkv
    refine ih (resolveStep steps acc d) ?_ kv hkv
    intro kv' hkv'
    rcases mem_indexMapInsert acc d.name _ kv' hkv' with h1 | h1
    · exact hacc kv' h1
    · rw [h1]
      exact stepScore_le steps d

/-- C7: every `TestResult` produced by the step resolver (and carried
unchanged through the log refiner into the student result) satisfies
`0 ≤ pointsAwarded ≤ pointsAvailable`. -/
theorem test_result_bounds (env : GhEnv) (student : AcceptedAssignment)
    (deadline : Option Int) (defs : List TestDefinition) (r : StudentResult)
    (h : fetch_student_results env student deadline defs = .ok r) :
    ∀ kv ∈ r.tests,
      0 ≤ kv.2.points_awarded ∧ kv.2.points_awarded ≤ kv.2.points_available := by
  obtain ⟨runs, run, jobs, job, -, -, -, -, hr⟩ :=
    fetch_ok_shape env student deadline defs r h
  subst hr
  rw [buildResult_tests]
  intro kv hkv
  exact ⟨Nat.zero_le _, resolveTests_bounds defs job.steps kv hkv⟩

/-- C7 witness: the bounds hold of the concrete scenario-A student result's
entries. -/
theorem test_result_bounds_witness :
    (0 ≤ demoTestResult1.points_awarded
      ∧ demoTestResult1.points_awarded ≤ demoTestResult1.points_available)
    ∧ (0 ≤ demoTestResult2.points_awarded
      ∧ demoTestResult2.points_awarded ≤ demoTestResult2.points_available) := by
  have h := test_result_bounds demoEnvA demoStudentA none demoDefsA demoResultA
    (by decide)
  exact ⟨h ("t1", demoTestResult1) (by decide), h ("t2", demoTestResult2) (by decide)⟩

/-! ## Batch lemmas -/

theorem batchLoop_eq_filterMap (resolve : AcceptedAssignment → Except String StudentResult)
    (roster : List AcceptedAssignment) :
    batchLoop resolve roster = roster.filterMap (fun s => (resolve s).toOption) := by
  induction roster with
  | nil => rfl
  | cons s rest ih =>
    simp only [batchLoop, List.filterMap_cons]
    cases h : resolve s with
    | ok r => simp [h, Except.toOption, ih]
    | error e => simp [h, Except.toOption, ih]

theorem batchLoop_mem (resolve : AcceptedAssignment → Except String StudentResult)
    (roster : List AcceptedAssignment) (r : StudentResult)
    (h : r ∈ batchLoop resolve roster) :
    ∃ s ∈ roster, resolve s = .ok r := by
  induction roster with
  | nil => simp [batchLoop] at h
  | cons s rest ih =>
    simp only [batchLoop] at h
    cases hs : resolve s with
    | ok r' =>
      rw [hs] at h
      rcases List.mem_cons.mp h with h1 | h1
      · exact ⟨s, List.mem_cons_self _ _, by rw [hs, h1]⟩
      · obtain ⟨s', hs', hok⟩ := ih h1
        exact ⟨s', List.mem_cons_of_mem _ hs', hok⟩
    | error e =>
      rw [hs] at h
      obtain ⟨s', hs', hok⟩ := ih h
      exact ⟨s', List.mem_cons_of_mem _ hs', hok⟩

/-! ## C8: uniform total_available -/

/-- C8: every student result carries `totalAvailable` equal to the sum of
the shared declarations' `maxScore`, so the value is identical across every
result of a batch. -/
theorem total_available_uniform :
    (∀ env student deadline defs r,
      fetch_student_results env student deadline defs = .ok r →
      r.total_available = (defs.map (fun t => t.max_score)).sum)
    ∧ (∀ roster dres deadline envOf l defs,
      dres = Except.ok defs →
      fetch_all_results roster dres deadline envOf = .ok l →
      ∀ r1 ∈ l, r1.total_available = (defs.map (fun t => t.max_score)).sum
        ∧ ∀ r2 ∈ l, r1.total_available = r2.total_available) := by
  have hsingle : ∀ env student deadline defs r,
      fetch_student_results env student deadline defs = .ok r →
      r.total_available = (defs.map (fun t => t.max_score)).sum := by
    intro env student deadline defs r h
    obtain ⟨runs, run, jobs, job, -, -, -, -, hr⟩ :=
      fetch_ok_shape env student deadline defs r h
    subst hr
    exact buildResult_total_available _ _ _ _ _ _
  refine ⟨hsingle, ?_⟩
  intro roster dres deadline envOf l defs hdres h
  subst hdres
  simp only [fetch_all_results] at h
  by_cases hempty : roster.isEmpty
  · rw [if_pos hempty] at h
    exact absurd h (by simp)
  · rw [if_neg hempty] at h
    injection h with h2
    subst h2
    intro r1 hr1
    obtain ⟨s1, -, hok1⟩ := batchLoop_mem _ roster r1 hr1
    refine ⟨hsingle _ _ _ _ _ hok1, ?_⟩
    intro r2 hr2
    obtain ⟨s2, -, hok2⟩ := batchLoop_mem _ roster r2 hr2
    rw [hsingle _ _ _ _ _ hok1, hsingle _ _ _ _ _ hok2]

/-- C8 witness: the scenario-A result's `totalAvailable` is the declared
5 + 10. -/
theorem total_available_uniform_witness :
    demoResultA.total_available = (demoDefsA.map (fun t => t.max_score)).sum := by
  exact total_available_uniform.1 demoEnvA demoStudentA none demoDefsA demoResultA
    (by decide)

/-! ## C6: per-student failure tolerance -/

/-- C6: once the roster is non-empty and declaration extraction succeeded,
the batch always succeeds; its output keeps, in roster order, exactly the
students whose resolution succeeded (a failed student is excluded, never
aborting the batch). A batch error means the roster was empty or extraction
itself failed. -/
theorem batch_partial_failure (roster : List AcceptedAssignment)
    (dres : Except String (List TestDefinition)) (deadline : Option Int)
    (envOf : AcceptedAssignment → GhEnv) :
    (∀ defs, dres = Except.ok defs → roster ≠ [] →
      fetch_all_results roster dres deadline envOf =
        Except.ok (roster.filterMap (fun s =>
          (fetch_student_results (envOf s) s deadline defs).toOption)))
    ∧ (∀ e, fetch_all_results roster dres deadline envOf = Except.error e →
      roster = [] ∨ dres = Except.error e) := by
  constructor
  · intro defs hdres hne
    subst hdres
    simp only [fetch_all_results]
    rw [if_neg (by simpa using hne)]
    rw [batchLoop_eq_filterMap]
  · intro e h
    by_cases hempty : roster.isEmpty
    · exact Or.inl (List.isEmpty_iff.mp hempty)
    · right
      simp only [fetch_all_results] at h
      rw [if_neg hempty] at h
      cases hdres : dres with
      | ok defs =>
        rw [hdres] at h
        exact absurd h (by simp)
      | error e2 =>
        rw [hdres] at h
        injection h with h2
        rw [h2]

/-- C6 witness: a two-student roster where bob's run listing fails produces
a successful batch containing only alice's result. -/
theorem batch_partial_failure_witness :
    fetch_all_results [demoStudentA, demoStudentB] (Except.ok demoDefsA) none
      demoEnvOf = Except.ok [demoResultA] := by
  have h := (batch_partial_failure [demoStudentA, demoStudentB]
    (Except.ok demoDefsA) none demoEnvOf).1 demoDefsA rfl (by simp)
  rw [h]
  decide

/-! ## C10: the log override is not clamped -/

/-- C10: with a succeeding 5-point test but a log reporting `Points 100/5`,
the student result keeps the per-test bound `awarded ≤ available` yet has
`totalAwarded = 100 > 5 = totalAvailable`: the log-derived override is not
clamped to the declared total. -/
theorem log_override_unclamped :
    fetch_student_results demoEnv10 demoStudentA none demoDefs10 =
      Except.ok overrideResult
    ∧ overrideResult.total_available < overrideResult.total_awarded
    ∧ overrideResult.tests.all
        (fun kv => kv.2.points_awarded ≤ kv.2.points_available) = true := by
  refine ⟨by decide, by decide, by decide⟩

/-! ## C2: late grading combination -/

theorem round_nonneg {x : ℚ} (hx : 0 ≤ x) : 0 ≤ round x := by
  rw [round_eq]
  refine Int.le_floor.mpr ?_
  push_cast
  linarith

/-- C2: every pair produced by the combiner is matched by student handle,
keeps the on-time total when the late attempt did not beat it, and otherwise
scores `round(late × (1 − p))`, for any penalty fraction `p ∈ [0, 1]`. -/
theorem late_grading_combine (onTimeBatch lateBatch : List StudentResult) (p : ℚ)
    (hp0 : 0 ≤ p) (hp1 : p ≤ 1) :
    ∀ r ∈ combineLate onTimeBatch lateBatch p,
      (r.late_result.total_awarded ≤ r.on_time_result.total_awarded →
        r.final_score = r.on_time_result.total_awarded)
      ∧ (r.on_time_result.total_awarded < r.late_result.total_awarded →
        (r.final_score : ℤ) =
          round ((r.late_result.total_awarded : ℚ) * (1 - p)))
      ∧ r.on_time_result.username = r.username
      ∧ r.late_result.username = r.username := by
  intro r hr
  obtain ⟨ot, hot, hmap⟩ := List.mem_filterMap.mp hr
  rcases hfind : lateBatch.find? (fun l => l.username == ot.username) with _ | l
  · rw [hfind] at hmap
    simp at hmap
  · rw [hfind] at hmap
    simp only [Option.map_some'] at hmap
    injection hmap with hmap
    subst hmap
    have hl : l.username = ot.username := by
      have := List.find?_some hfind
      simpa using this
    refine ⟨?_, ?_, rfl, hl⟩
    · intro hle
      dsimp only at hle ⊢
      simp only [lateFinalScore]
      rw [if_pos hle]
    · intro hlt
      dsimp only at hlt ⊢
      simp only [lateFinalScore]
      rw [if_neg (by omega)]
      have hprod : (0 : ℚ) ≤ (l.total_awarded : ℚ) * (1 - p) := by
        have h1 : (0 : ℚ) ≤ (l.total_awarded : ℚ) := by positivity
        nlinarith
      exact Int.toNat_of_nonneg (round_nonneg hprod)

/-- C2 witness (scenario F): on-time 5/15, late 15/15, penalty 0.2 gives a
final score of 12. -/
theorem late_grading_combine_witness :
    demoPair ∈ combineLate demoOnBatch demoLateBatch (1/5)
    ∧ demoPair.final_score = 12
    ∧ (demoPair.final_score : ℤ) =
        round ((demoPair.late_result.total_awarded : ℚ) * (1 - 1/5)) := by
  have hlfs : lateFinalScore 5 15 (1/5) = 12 := by
    rw [lateFinalScore, if_neg (by norm_num)]
    rw [show ((15 : Nat) : ℚ) * (1 - 1/5) = 12 by norm_num]
    simp
  have hlfs' : lateFinalScore 5 15 ((5 : ℚ)⁻¹) = 12 := by
    rw [show ((5 : ℚ)⁻¹) = 1/5 by norm_num]
    exact hlfs
  have hcomb : combineLate demoOnBatch demoLateBatch (1/5) = [demoPair] := by
    simp [combineLate, demoOnBatch, demoLateBatch, demoOnTimeResult, demoLateResult,
      demoPair, List.find?, hlfs, hlfs']
  have hmem : demoPair ∈ combineLate demoOnBatch demoLateBatch (1/5) := by
    rw [hcomb]
    exact List.mem_singleton.mpr rfl
  have h := late_grading_combine demoOnBatch demoLateBatch (1/5)
    (by norm_num) (by norm_num) demoPair hmem
  exact ⟨hmem, rfl, h.2.1 (by decide)⟩

/-! ## C5: workflow extraction -/

theorem extractStep_eq (tests : List TestDefinition) (step : WorkflowStep) :
    extractStep tests step = tests ++ (extractedDecl step).toList := by
  unfold extractStep extractedDecl
  cases hb : (step.uses.map (fun u => containsSub u "autograding-command-grader")).getD false
  · simp [hb]
  · simp only [hb, Bool.not_true, Bool.false_eq_true, if_false, if_true]
    cases hid : step.id with
    | none => simp [hid]
    | some id =>
      cases hw : step.with_ with
      | none => simp [hid, hw]
      | some w =>
        cases htn : w.test_name with
        | none => simp [hid, hw, htn]
        | some tn =>
          cases hms : w.max_score with
          | none => simp [hid, hw, htn, hms]
          | some ms => simp [hid, hw, htn, hms]

theorem extract_foldl_eq (steps : List WorkflowStep) :
    ∀ acc, steps.foldl extractStep acc = acc ++ steps.filterMap extractedDecl := by
  induction steps with
  | nil =>
    intro acc
    simp
  | cons s rest ih =>
    intro acc
    simp only [List.foldl_cons, List.filterMap_cons]
    rw [extractStep_eq, ih (acc ++ (extractedDecl s).toList)]
    cases hd : extractedDecl s <;> simp [hd]

/-- C5 counterexample: a step referencing the autograding-command-grader
action with a step id and a numeric max-score — but no test-name parameter —
is skipped by the extractor (here leaving it with nothing, hence the
no-tests error), while the claim says such a step yields a declaration. -/
theorem workflow_extraction_counterexample :
    (noTestNameStep.uses.map
      (fun u => containsSub u "autograding-command-grader")).getD false = true
    ∧ noTestNameStep.id.isSome = true
    ∧ (noTestNameStep.with_.map (fun w => w.max_score.isSome)).getD false = true
    ∧ extract_test_definitions demoWfNoTestName =
        Except.error "No autograding tests found in workflow" := by decide

/-- C5 (amended): the extractor emits, in file order, one declaration for
exactly those steps of the grading job whose action reference contains the
marker and that carry a step id, a test-name parameter and a numeric
max-score (a marker step lacking any of the three is silently skipped); it
errors only when no step qualifies. -/
theorem workflow_extraction_amended (workflow : WorkflowFile) (job : WorkflowJob)
    (hjob : (workflow.jobs.find? (fun kv => kv.1 == "run-autograding-tests")).map
      (fun kv => kv.2) = some job) :
    (job.steps.filterMap extractedDecl ≠ [] →
      extract_test_definitions workflow =
        Except.ok (job.steps.filterMap extractedDecl))
    ∧ (job.steps.filterMap extractedDecl = [] →
      extract_test_definitions workflow =
        Except.error "No autograding tests found in workflow") := by
  have hfold : job.steps.foldl extractStep [] = job.steps.filterMap extractedDecl := by
    rw [extract_foldl_eq]
    simp
  constructor
  · intro hne
    unfold extract_test_definitions
    rw [hjob]
    dsimp only
    rw [hfold]
    rw [if_neg (by simpa using hne)]
  · intro he
    unfold extract_test_definitions
    rw [hjob]
    dsimp only
    rw [hfold, he]
    rfl

/-- C5 witness: on a workflow with a checkout step and two proper grader
steps, extraction returns precisely the two declarations in file order. -/
theorem workflow_extraction_witness :
    extract_test_definitions demoWfGood =
      Except.ok [⟨"t1", "t1-id", 5⟩, ⟨"t2", "t2-id", 10⟩] := by
  have h := (workflow_extraction_amended demoWfGood
    ⟨[⟨"Checkout code", none, some "actions/checkout@v4", none⟩,
      graderStep "t1" (some "t1") 5,
      graderStep "t2" (some "t2") 10]⟩ (by decide)).1 (by decide)
  rw [h]
  decide

/-! ## C9: export record order -/

theorem getElem?_cons3 {α : Type} (a b c : α) (R : List α) (n : Nat) :
    (a :: b :: c :: R)[n + 3]? = R[n]? := by
  rw [show n + 3 = n + 2 + 1 from rfl, List.getElem?_cons_succ]
  rw [show n + 2 = n + 1 + 1 from rfl, List.getElem?_cons_succ]
  rw [List.getElem?_cons_succ]

/-- C9 counterexample: for a student with one 5-point passing test and a
15-point total available, the cell right after the per-test columns holds
`totalAwarded` (`"5"`), not `totalAvailable` (`"15"`) as the claimed order
[..., total available, total awarded, ...] predicts. -/
theorem export_order_counterexample :
    export_to_csv [demoStudent9] =
      Except.ok [csvRecord (exportTestNames [demoStudent9]) demoStudent9]
    ∧ exportTestNames [demoStudent9] = ["t1"]
    ∧ (csvRecord ["t1"] demoStudent9)[4]? = some "5"
    ∧ (csvRecord ["t1"] demoStudent9)[5]? = some "15"
    ∧ toString demoStudent9.total_awarded = "5"
    ∧ toString demoStudent9.total_available = "15"
    ∧ (("5" : String) ≠ "15") := by
  refine ⟨rfl, by decide, by decide, by decide, by decide, by decide, by decide⟩

/-- C9 (amended): each exported row lists, in order, the student handle, the
repository URL, the run timestamp, one awarded-points column per test name
in the first student's key order (which, for step-resolved results with
distinct declaration names, is the declaration extraction order), then total
awarded, then total available, then the two-decimal percentage. -/
theorem export_record_order (results : List StudentResult) (hne : results ≠ []) :
    export_to_csv results =
      Except.ok (results.map (csvRecord (exportTestNames results)))
    ∧ (∀ (r : StudentResult) (names : List String),
        (csvRecord names r).length = names.length + 6
        ∧ (csvRecord names r)[0]? = some r.username
        ∧ (csvRecord names r)[1]? = some r.repo_url
        ∧ (csvRecord names r)[2]? = some (to_rfc3339 r.workflow_run_timestamp)
        ∧ (∀ i, i < names.length →
            (csvRecord names r)[3 + i]? = (names[i]?).map (awardCell r))
        ∧ (csvRecord names r)[3 + names.length]? = some (toString r.total_awarded)
        ∧ (csvRecord names r)[4 + names.length]? = some (toString r.total_available)
        ∧ (csvRecord names r)[5 + names.length]? =
            some (formatPct2 r.total_awarded r.total_available))
    ∧ (∀ defs steps, (defs.map (fun d => d.name)).Nodup →
        (resolveTests defs steps).map (fun kv => kv.1) =
          defs.map (fun d => d.name)) := by
  refine ⟨?_, ?_, ?_⟩
  · unfold export_to_csv
    rw [if_neg (by simpa using hne)]
  · intro r names
    refine ⟨?_, by simp [csvRecord], by simp [csvRecord], by simp [csvRecord],
      ?_, ?_, ?_, ?_⟩
    · simp only [csvRecord, List.length_append, List.length_map, List.length_cons,
        List.length_nil]
      omega
    · intro i hi
      have h1 : (csvRecord names r)[3 + i]? =
          ((names.map (awardCell r)) ++
            [toString r.total_awarded, toString r.total_available,
              formatPct2 r.total_awarded r.total_available])[i]? := by
        rw [Nat.add_comm 3 i]
        exact getElem?_cons3 _ _ _ _ _
      rw [h1, List.getElem?_append_left (by simpa using hi), List.getElem?_map]
    · have h1 : (csvRecord names r)[3 + names.length]? =
          ((names.map (awardCell r)) ++
            [toString r.total_awarded, toString r.total_available,
              formatPct2 r.total_awarded r.total_available])[names.length]? := by
        rw [Nat.add_comm 3 names.length]
        exact getElem?_cons3 _ _ _ _ _
      rw [h1, List.getElem?_append_right (by simp)]
      simp
    · have h1 : (csvRecord names r)[4 + names.length]? =
          ((names.map (awardCell r)) ++
            [toString r.total_awarded, toString r.total_available,
              formatPct2 r.total_awarded r.total_available])[names.length + 1]? := by
        rw [show 4 + names.length = (names.length + 1) + 3 by omega]
        exact getElem?_cons3 _ _ _ _ _
      rw [h1, List.getElem?_append_right (by simp)]
      simp
    · have h1 : (csvRecord names r)[5 + names.length]? =
          ((names.map (awardCell r)) ++
            [toString r.total_awarded, toString r.total_available,
              formatPct2 r.total_awarded r.total_available])[names.length + 2]? := by
        rw [show 5 + names.length = (names.length + 2) + 3 by omega]
        exact getElem?_cons3 _ _ _ _ _
      rw [h1, List.getElem?_append_right (by simp)]
      simp
  · intro defs steps hnd
    rw [resolveTests_eq_map defs steps hnd, List.map_map]
    rfl

/-- C9 witness: for the singleton batch of `demoStudent9` the export
succeeds and the cell after the single test column is the total awarded. -/
theorem export_record_order_witness :
    export_to_csv [demoStudent9] =
      Except.ok ([demoStudent9].map (csvRecord (exportTestNames [demoStudent9])))
    ∧ (csvRecord ["t1"] demoStudent9)[4]? =
        some (toString demoStudent9.total_awarded) := by
  have h := export_record_order [demoStudent9] (by simp)
  refine ⟨h.1, ?_⟩
  have h2 := ((h.2.1 demoStudent9 ["t1"]).2.2.2.2.2.1)
  simpa using h2

end Autograder
